import Mathlib

/-!
Verification of the hierarchical lazy data accessor contract used by the
Roman ASDF notebook, together with the data-quality bit-decomposition
loop that appears literally in the notebook source.

The notebook under review is glue code over the `asdf` /
`roman_datamodels` accessor libraries; the accessor itself is not part of
the repository, so its data model and operations are modelled here from
the specification (each such definition carries a doc comment starting
with `Modelled from the spec:`).  The data-quality flag decomposition
loop, by contrast, is embedded directly from the notebook cell that
iterates over the reversed binary representation of each flag.
-/

/- ## Data model -/

mutual
/-- Modelled from the spec: a `HierarchicalNode` of the accessor tree
(spec section 3).  A node is a Group with named children, an ArrayBlock
with shape, dtype, backing-store payload and a `materialized` cache flag,
a Scalar, a TimeValue instant (seconds on a fixed reference scale, exact
rationals in place of floats), or a QuantityValue pairing numeric values
with a unit tag. -/
inductive HNode : Type where
  | group (children : HChildren)
  | arrayBlock (shape : List Nat) (dtype : String) (payload : List Int) (materialized : Bool)
  | scalar (v : Int)
  | timeValue (t : Rat)
  | quantityValue (value : List Rat) (unit : String)

/-- Modelled from the spec: the ordered association of child keys to child
nodes of a Group node. -/
inductive HChildren : Type where
  | nil
  | cons (key : String) (node : HNode) (rest : HChildren)
end

mutual
/-- Modelled from the spec: a node of the backing store before parsing:
the same tree shape as `HNode` but with no materialization state.  The
ArrayBlock payload lives in the store; `open` decides whether to fetch
it. -/
inductive SrcNode : Type where
  | group (children : SrcChildren)
  | arrayBlock (shape : List Nat) (dtype : String) (payload : List Int)
  | scalar (v : Int)
  | timeValue (t : Rat)
  | quantityValue (value : List Rat) (unit : String)

/-- Modelled from the spec: the children of a backing-store Group node. -/
inductive SrcChildren : Type where
  | nil
  | cons (key : String) (node : SrcNode) (rest : SrcChildren)
end

/-- Modelled from the spec: errors fatal to `open` (spec section 7). -/
inductive OpenError : Type where
  | formatError
  | validationError
deriving DecidableEq

/-- Modelled from the spec: per-access errors (spec section 7):
missing key, operation on a node of the wrong kind, and I/O failure
while materializing through the backing stream. -/
inductive AccessError : Type where
  | keyError (k : String)
  | typeError
  | transportError
deriving DecidableEq

/-- Modelled from the spec: what an indexing access returns — a sub-tree
node for a Group child, or a materialized value for a leaf child. -/
inductive Accessed : Type where
  | node (n : HNode)
  | matValue (payload : List Int)
  | scalarVal (v : Int)
  | timeVal (t : Rat)
  | quantityVal (value : List Rat) (unit : String)

/- ## Basic tree operations -/

/-- Modelled from the spec: the immediate child keys of a Group node, in
insertion order. -/
def keysOfChildren : HChildren → List String
  | .nil => []
  | .cons k _ rest => k :: keysOfChildren rest

/-- Modelled from the spec: `node.keys()` — child keys of a Group node,
`TypeError`-kind failure on any other node kind. -/
def keysE : HNode → Except AccessError (List String)
  | .group cs => .ok (keysOfChildren cs)
  | _ => .error .typeError

/-- Modelled from the spec: find the first child bound to a key. -/
def lookupChild : HChildren → String → Option HNode
  | .nil, _ => none
  | .cons key n rest, k => if key = k then some n else lookupChild rest k

/-- Modelled from the spec: replace the first child bound to a key. -/
def updateChild : HChildren → String → HNode → HChildren
  | .nil, _, _ => .nil
  | .cons key n rest, k, n2 =>
      if key = k then .cons key n2 rest else .cons key n (updateChild rest k n2)

/-- Modelled from the spec: the node reached by following a path of child
keys from a node. -/
def nodeAt : HNode → List String → Option HNode
  | n, [] => some n
  | .group cs, k :: p =>
      match lookupChild cs k with
      | some c => nodeAt c p
      | none => none
  | _, _ :: _ => none

/-- Modelled from the spec: the `materialized` flag of the ArrayBlock at a
path, if the path leads to an ArrayBlock. -/
def matAt (n : HNode) (p : List String) : Option Bool :=
  match nodeAt n p with
  | some (.arrayBlock _ _ _ m) => some m
  | _ => none

/-- Modelled from the spec: the (value, unit) pairing of the QuantityValue
at a path, if the path leads to a QuantityValue. -/
def quantityAt (n : HNode) (p : List String) : Option (List Rat × String) :=
  match nodeAt n p with
  | some (.quantityValue v u) => some (v, u)
  | _ => none

/- ## Indexing access (the canonical operation) -/

/-- Modelled from the spec: the body of `node[key]` on a Group's children
(spec section 4): a Group child is returned as a still-lazy sub-tree; an
ArrayBlock child is materialized on first access (one fetch through the
stream, cache flag set) and served from the cache afterwards; leaf kinds
return their values; a missing key is a `KeyError`-kind failure; a fetch
with the backing stream unavailable is a `TransportError`.  The result
carries the updated children and the number of payload fetches
performed. -/
def getItemC (stream : Bool) (cs : HChildren) (k : String) :
    Except AccessError Accessed × HChildren × Nat :=
  match lookupChild cs k with
  | none => (.error (.keyError k), cs, 0)
  | some (.arrayBlock _ _ pl true) => (.ok (.matValue pl), cs, 0)
  | some (.arrayBlock sh dt pl false) =>
      if stream then
        (.ok (.matValue pl), updateChild cs k (.arrayBlock sh dt pl true), 1)
      else (.error .transportError, cs, 0)
  | some (.group gcs) => (.ok (.node (.group gcs)), cs, 0)
  | some (.scalar v) => (.ok (.scalarVal v), cs, 0)
  | some (.timeValue t) => (.ok (.timeVal t), cs, 0)
  | some (.quantityValue v u) => (.ok (.quantityVal v u), cs, 0)

/-- Modelled from the spec: `node[key]` — indexing access, the canonical
navigation operation; `TypeError`-kind failure on a non-Group node.
Returns the access result, the updated tree, and the number of payload
fetches performed. -/
def getItem (stream : Bool) (n : HNode) (k : String) :
    Except AccessError Accessed × HNode × Nat :=
  match n with
  | .group cs =>
      let r := getItemC stream cs k
      (r.1, .group r.2.1, r.2.2)
  | other => (.error .typeError, other, 0)

/- ## Attribute-style access -/

/-- Modelled from the spec: the body of `node.attribute_name` on a
Group's children, written as its own recursion over the children list so
that its agreement with the indexing operation is a theorem rather than a
definition. -/
def getAttrC (stream : Bool) (cs : HChildren) (k : String) :
    Except AccessError Accessed × HChildren × Nat :=
  match cs with
  | .nil => (.error (.keyError k), .nil, 0)
  | .cons key n rest =>
    if key = k then
      match n with
      | .group gcs => (.ok (.node (.group gcs)), .cons key n rest, 0)
      | .arrayBlock sh dt pl m =>
          if m then (.ok (.matValue pl), .cons key n rest, 0)
          else if stream then
            (.ok (.matValue pl), .cons key (.arrayBlock sh dt pl true) rest, 1)
          else (.error .transportError, .cons key n rest, 0)
      | .scalar v => (.ok (.scalarVal v), .cons key n rest, 0)
      | .timeValue t => (.ok (.timeVal t), .cons key n rest, 0)
      | .quantityValue v u => (.ok (.quantityVal v u), .cons key n rest, 0)
    else
      let r := getAttrC stream rest k
      (r.1, .cons key n r.2.1, r.2.2)

/-- Modelled from the spec: `node.attribute_name` — attribute-style
access. -/
def getAttr (stream : Bool) (n : HNode) (k : String) :
    Except AccessError Accessed × HNode × Nat :=
  match n with
  | .group cs =>
      let r := getAttrC stream cs k
      (r.1, .group r.2.1, r.2.2)
  | other => (.error .typeError, other, 0)

/- ## Copy, materialization state, info -/

mutual
/-- Modelled from the spec: `root.copy()` — an independent in-memory
snapshot of the tree; every ArrayBlock payload is pulled into memory
(deep copy, the documented safe choice), so the snapshot no longer needs
the backing stream. -/
def copyNode : HNode → HNode
  | .group cs => .group (copyChildren cs)
  | .arrayBlock sh dt pl _ => .arrayBlock sh dt pl true
  | .scalar v => .scalar v
  | .timeValue t => .timeValue t
  | .quantityValue v u => .quantityValue v u

/-- Modelled from the spec: `copy()` on the children of a Group node. -/
def copyChildren : HChildren → HChildren
  | .nil => .nil
  | .cons k n rest => .cons k (copyNode n) (copyChildren rest)
end

mutual
/-- Modelled from the spec: every ArrayBlock in the tree has been
materialized. -/
def allMaterialized : HNode → Bool
  | .group cs => allMaterializedC cs
  | .arrayBlock _ _ _ m => m
  | _ => true

/-- Modelled from the spec: `allMaterialized` over a children list. -/
def allMaterializedC : HChildren → Bool
  | .nil => true
  | .cons _ n rest => allMaterialized n && allMaterializedC rest
end

mutual
/-- Modelled from the spec: `node.info()` — a textual, structure-only
summary of the tree: keys, shapes, dtypes and load state, never the
payload bytes. -/
def infoNode : HNode → List String
  | .group cs => "group" :: infoChildren cs
  | .arrayBlock sh dt _ m =>
      ["array shape=" ++ toString sh ++ " dtype=" ++ dt ++ " loaded=" ++ toString m]
  | .scalar v => ["scalar " ++ toString v]
  | .timeValue t => ["time " ++ toString t]
  | .quantityValue v u => ["quantity " ++ toString v ++ " " ++ u]

/-- Modelled from the spec: `info()` over a children list. -/
def infoChildren : HChildren → List String
  | .nil => []
  | .cons k n rest => (k :: infoNode n) ++ infoChildren rest
end

mutual
/-- Modelled from the spec: forget every ArrayBlock payload, keeping all
structural metadata; used to state that structural inspection does not
depend on payload bytes. -/
def erasePayload : HNode → HNode
  | .group cs => .group (erasePayloadC cs)
  | .arrayBlock sh dt _ m => .arrayBlock sh dt [] m
  | .scalar v => .scalar v
  | .timeValue t => .timeValue t
  | .quantityValue v u => .quantityValue v u

/-- Modelled from the spec: `erasePayload` over a children list. -/
def erasePayloadC : HChildren → HChildren
  | .nil => .nil
  | .cons k n rest => .cons k (erasePayload n) (erasePayloadC rest)
end

/- ## Parsing and opening -/

mutual
/-- Modelled from the spec: the structural parse performed by `open`:
node kinds, keys, shapes and dtypes are read eagerly; ArrayBlock payloads
are fetched only when `lazy` is false (`materialized` starts as the
negation of `lazy`). -/
def parseNode (lazy : Bool) : SrcNode → HNode
  | .group scs => .group (parseChildren lazy scs)
  | .arrayBlock sh dt pl => .arrayBlock sh dt pl (!lazy)
  | .scalar v => .scalar v
  | .timeValue t => .timeValue t
  | .quantityValue v u => .quantityValue v u

/-- Modelled from the spec: the structural parse of a children list. -/
def parseChildren (lazy : Bool) : SrcChildren → HChildren
  | .nil => .nil
  | .cons k n rest => .cons k (parseNode lazy n) (parseChildren lazy rest)
end

/-- Modelled from the spec: the child keys of a backing-store Group. -/
def srcKeys : SrcChildren → List String
  | .nil => []
  | .cons k _ rest => k :: srcKeys rest

/-- Modelled from the spec: find the first backing-store child bound to a
key. -/
def srcLookup : SrcChildren → String → Option SrcNode
  | .nil, _ => none
  | .cons key n rest, k => if key = k then some n else srcLookup rest k

/-- Modelled from the spec: the backing-store node reached by a path. -/
def srcNodeAt : SrcNode → List String → Option SrcNode
  | s, [] => some s
  | .group scs, k :: p =>
      match srcLookup scs k with
      | some c => srcNodeAt c p
      | none => none
  | _, _ :: _ => none

/-- A list of keys with no duplicates, checked front to back. -/
def distinct : List String → Bool
  | [] => true
  | k :: rest => (!rest.contains k) && distinct rest

mutual
/-- Modelled from the spec: a recognizable backing store — every Group's
child keys are unique (spec section 3 invariant, enforced at `open`). -/
def srcWellFormed : SrcNode → Bool
  | .group scs => distinct (srcKeys scs) && srcWellFormedC scs
  | _ => true

/-- Modelled from the spec: `srcWellFormed` over a children list. -/
def srcWellFormedC : SrcChildren → Bool
  | .nil => true
  | .cons _ n rest => srcWellFormed n && srcWellFormedC rest
end

/-- Modelled from the spec: `open(source, lazy)` — an absent or malformed
header is a `FormatError`; otherwise the tree structure is parsed, with
payload fetched eagerly only when `lazy` is false. -/
def openTree (src : Option SrcNode) (lazy : Bool) : Except OpenError HNode :=
  match src with
  | none => .error .formatError
  | some s => if srcWellFormed s then .ok (parseNode lazy s) else .error .formatError

/-- Modelled from the spec: the data-model `open` on an already-opened
generic tree — the returned model is the `roman` subtree of the generic
tree (the notebook: the keys present on the model object are those inside
the `roman` group); anything else fails validation. -/
def rdmOpen (n : HNode) : Except OpenError HNode :=
  match n with
  | .group cs =>
      match lookupChild cs "roman" with
      | some r => .ok r
      | none => .error .validationError
  | _ => .error .formatError

/- ## Time durations -/

/-- Modelled from the spec: subtracting two TimeValue nodes yields a
duration (stored in seconds); defined only on TimeValue nodes. -/
def tvSub : HNode → HNode → Option Rat
  | .timeValue t2, .timeValue t1 => some (t2 - t1)
  | _, _ => none

/-- Modelled from the spec: a duration expressed in seconds. -/
def durToSeconds (d : Rat) : Rat := d

/-- Modelled from the spec: a duration expressed in days, via the fixed
factor of 86400 seconds per day. -/
def durToDays (d : Rat) : Rat := d / 86400

/- ## The data-quality bit-decomposition loop (from the notebook source) -/

/-- The binary digits of a natural number, least significant first; the
reversal of the digits of `np.binary_repr` for a positive argument. -/
def natBitsLSB : Nat → List Nat
  | 0 => []
  | n + 1 => (n + 1) % 2 :: natBitsLSB ((n + 1) / 2)
decreasing_by exact Nat.div_lt_self (Nat.succ_pos n) (by norm_num)

/-- `np.binary_repr` as used in the notebook: the binary digits of a
non-negative flag value, most significant first, with `[0]` for zero. -/
def binaryRepr (u : Nat) : List Nat :=
  if u = 0 then [0] else (natBitsLSB u).reverse

/-- The notebook's inner loop: `for ii, cc in enumerate(br[::-1]): if
int(cc)==1: print(ii, 2**ii)` — walk the digit list with a running index
`i`, collecting `(i, 2^i)` for every digit equal to 1. -/
def bitsOnAux : List Nat → Nat → List (Nat × Nat)
  | [], _ => []
  | c :: rest, i => (if c = 1 then [(i, 2 ^ i)] else []) ++ bitsOnAux rest (i + 1)

/-- The notebook's decomposition of one data-quality flag value: the
positions (with their powers of two) of the 1-bits of the reversed
`np.binary_repr` string. -/
def bitsOn (u : Nat) : List (Nat × Nat) := bitsOnAux (binaryRepr u).reverse 0

/- ## Concrete sample trees (used by witnesses) -/

/-- A small level-2-like children list: two lazy array blocks and a
`meta` group, mirroring the notebook's `data`/`dq`/`meta` layout. -/
def sampleChildren : HChildren :=
  .cons "data" (.arrayBlock [4088, 4088] "float32" [1, 2, 3] false)
    (.cons "dq" (.arrayBlock [4088, 4088] "int32" [0, 4] false)
      (.cons "meta" (.group (.cons "aperture" (.group .nil) .nil)) .nil))

/-- The root node of the sample tree. -/
def sampleTree : HNode := .group sampleChildren

/-- A small backing-store tree for `openTree` witnesses. -/
def srcSample : SrcNode :=
  .group (.cons "data" (.arrayBlock [2, 2] "float32" [1, 2])
    (.cons "meta" (.group .nil) .nil))

/-- A sample `roman` subtree children list. -/
def romanSample : HChildren := .cons "data" (.scalar 0) .nil

/- ## Theorems -/

/-- Every pair collected by the bit loop carries the power of two of its
position. -/
theorem bitsOnAux_pow : ∀ (l : List Nat) (i : Nat),
    (bitsOnAux l i).all (fun p => p.2 == 2 ^ p.1) = true
  | [], _ => rfl
  | c :: rest, i => by
      rw [bitsOnAux, List.all_append, bitsOnAux_pow rest (i + 1)]
      split
      · simp
      · simp

/-- Summing the collected powers over the least-significant-first digit
list recovers the number, scaled by the starting power. -/
theorem bitsOnAux_natBits_sum : ∀ (u i : Nat),
    ((bitsOnAux (natBitsLSB u) i).map Prod.snd).sum = u * 2 ^ i := by
  intro u
  induction u using Nat.strong_induction_on with
  | _ u ih =>
    intro i
    match u with
    | 0 => simp [natBitsLSB, bitsOnAux]
    | n + 1 =>
      rw [natBitsLSB, bitsOnAux, List.map_append, List.sum_append,
        ih ((n + 1) / 2) (Nat.div_lt_self (Nat.succ_pos n) (by norm_num)) (i + 1)]
      rcases Nat.mod_two_eq_zero_or_one (n + 1) with h | h
      · rw [h]
        have hu : 2 * ((n + 1) / 2) = n + 1 := by omega
        simp only [show ¬ (0 : Nat) = 1 by norm_num, if_false, List.map_nil,
          List.sum_nil, Nat.zero_add, pow_succ]
        calc (n + 1) / 2 * (2 ^ i * 2) = 2 * ((n + 1) / 2) * 2 ^ i := by ring
          _ = (n + 1) * 2 ^ i := by rw [hu]
      · rw [h]
        have hu : 2 * ((n + 1) / 2) + 1 = n + 1 := by omega
        simp only [if_pos rfl, List.map_cons, List.map_nil, List.sum_cons,
          List.sum_nil, Nat.add_zero, pow_succ]
        calc 2 ^ i + (n + 1) / 2 * (2 ^ i * 2)
            = (2 * ((n + 1) / 2) + 1) * 2 ^ i := by ring
          _ = (n + 1) * 2 ^ i := by rw [hu]

/-- C10: for every non-negative data-quality flag value `u`, the
notebook's loop over the reversed `np.binary_repr(u)` collects exactly
the 1-bit positions with their powers of two, and those powers sum back
to `u`: the printed decomposition is a lossless round-trip. -/
theorem dq_bits_roundtrip (u : Nat) :
    ((bitsOn u).map Prod.snd).sum = u ∧
      (bitsOn u).all (fun p => p.2 == 2 ^ p.1) = true := by
  constructor
  · by_cases h : u = 0
    · subst h; rfl
    · rw [bitsOn, binaryRepr, if_neg h, List.reverse_reverse]
      simpa using bitsOnAux_natBits_sum u 0
  · rw [bitsOn]
    exact bitsOnAux_pow _ _

/-- C7: subtracting two TimeValue nodes with `t1 < t2` yields a duration
whose expression in seconds equals its expression in days multiplied by
86400 exactly — the conversion is a fixed factor, not a
unit-compatibility check. -/
theorem timevalue_duration_seconds_days (t1 t2 d : Rat) (hlt : t1 < t2)
    (hsub : tvSub (HNode.timeValue t2) (HNode.timeValue t1) = some d) :
    durToSeconds d = durToDays d * 86400 := by
  rw [tvSub] at hsub
  injection hsub with hd
  rw [durToSeconds, durToDays]
  exact (div_mul_cancel₀ d (by norm_num)).symm

/-- Witness for C7 at `t1 = 0`, `t2 = 139`. -/
theorem timevalue_duration_seconds_days_witness :
    durToSeconds 139 = durToDays 139 * 86400 :=
  timevalue_duration_seconds_days 0 139 139 (by norm_num)
    (by rw [tvSub]; norm_num)

/-- C5: indexing a Group node with an absent key fails with the
`KeyError`-kind error, returns the tree unchanged (so every other node's
materialization state is untouched), and performs no fetch. -/
theorem missing_key_error_leaves_tree (st : Bool) (cs : HChildren) (k : String)
    (h : lookupChild cs k = none) :
    getItem st (.group cs) k = (.error (.keyError k), .group cs, 0) := by
  simp [getItem, getItemC, h]

/-- Witness for C5 on the sample tree with key `"nope"`. -/
theorem missing_key_error_leaves_tree_witness :
    getItem true sampleTree "nope"
      = (.error (.keyError "nope"), sampleTree, 0) :=
  missing_key_error_leaves_tree true sampleChildren "nope" rfl

/-- Indexing on a cons cell whose head key differs from the query
delegates to the tail, re-attaching the head. -/
theorem getItemC_cons_ne (st : Bool) (key : String) (n : HNode)
    (rest : HChildren) (k : String) (h : ¬ key = k) :
    getItemC st (.cons key n rest) k =
      ((getItemC st rest k).1, .cons key n (getItemC st rest k).2.1,
        (getItemC st rest k).2.2) := by
  rcases hl : lookupChild rest k with _ | c
  · simp [getItemC, lookupChild, h, hl]
  · cases c with
    | group gcs => simp [getItemC, lookupChild, h, hl]
    | arrayBlock sh dt pl m =>
        cases m with
        | true => simp [getItemC, lookupChild, h, hl]
        | false =>
            cases st with
            | true => simp [getItemC, lookupChild, updateChild, h, hl]
            | false => simp [getItemC, lookupChild, h, hl]
    | scalar v => simp [getItemC, lookupChild, h, hl]
    | timeValue t => simp [getItemC, lookupChild, h, hl]
    | quantityValue v u => simp [getItemC, lookupChild, h, hl]

/-- Attribute-style access and indexing access agree on every children
list. -/
theorem getAttrC_eq_getItemC (st : Bool) : ∀ (cs : HChildren) (k : String),
    getAttrC st cs k = getItemC st cs k
  | .nil, k => by simp [getAttrC, getItemC, lookupChild]
  | .cons key n rest, k => by
      by_cases hk : key = k
      · cases n with
        | group gcs => simp [getAttrC, getItemC, lookupChild, hk]
        | arrayBlock sh dt pl m =>
            cases m with
            | true => simp [getAttrC, getItemC, lookupChild, hk]
            | false =>
                cases st with
                | true => simp [getAttrC, getItemC, lookupChild, updateChild, hk]
                | false => simp [getAttrC, getItemC, lookupChild, hk]
        | scalar v => simp [getAttrC, getItemC, lookupChild, hk]
        | timeValue t => simp [getAttrC, getItemC, lookupChild, hk]
        | quantityValue v u => simp [getAttrC, getItemC, lookupChild, hk]
      · rw [getItemC_cons_ne st key n rest k hk]
        simp only [getAttrC, if_neg hk, getAttrC_eq_getItemC st rest k]

/-- C1: for every node and key, attribute-style access returns exactly
what indexing access returns — the same result, the same updated tree and
the same fetch count: one canonical navigation operation, not two
independently maintained code paths. -/
theorem attribute_access_eq_indexing (st : Bool) (n : HNode) (k : String) :
    getAttr st n k = getItem st n k := by
  cases n with
  | group cs => rw [getAttr, getItem, getAttrC_eq_getItemC]
  | arrayBlock sh dt pl m => rfl
  | scalar v => rfl
  | timeValue t => rfl
  | quantityValue v u => rfl

/-- Looking up a key right after replacing its first binding finds the
replacement. -/
theorem lookup_update_self : ∀ (cs : HChildren) (k : String) (b a : HNode),
    lookupChild cs k = some a →
      lookupChild (updateChild cs k b) k = some b
  | .nil, k, b, a => by intro h; simp [lookupChild] at h
  | .cons key n rest, k, b, a => by
      intro h
      by_cases hk : key = k
      · simp [updateChild, lookupChild, hk]
      · simp only [lookupChild, if_neg hk] at h
        simp only [updateChild, if_neg hk, lookupChild, if_neg hk]
        exact lookup_update_self rest k b a h

/-- Replacing the binding of one key leaves lookups of other keys
unchanged. -/
theorem lookup_update_ne : ∀ (cs : HChildren) (k k2 : String) (b : HNode),
    ¬ k2 = k → lookupChild (updateChild cs k b) k2 = lookupChild cs k2
  | .nil, _, _, _ => by intro _; rfl
  | .cons key n rest, k, k2, b => by
      intro h
      have h2 : ¬ k = k2 := fun hc => h hc.symm
      by_cases hk : key = k
      · simp [updateChild, lookupChild, hk, h2]
      · by_cases hk2 : key = k2
        · simp [updateChild, lookupChild, hk, hk2, h]
        · simp only [updateChild, if_neg hk, lookupChild, if_neg hk2]
          exact lookup_update_ne rest k k2 b h

/-- C3: first access of an unmaterialized ArrayBlock child fetches the
payload exactly once, returns it, and flips the cache flag; the second
access returns the same value from the cache with no fetch and no tree
change; and every node whose `materialized` flag was already true keeps
it true across the access. -/
theorem materialize_once_then_cached (cs : HChildren) (k : String)
    (sh : List Nat) (dt : String) (pl : List Int)
    (h : lookupChild cs k = some (.arrayBlock sh dt pl false)) :
    getItem true (.group cs) k
      = (.ok (.matValue pl),
          .group (updateChild cs k (.arrayBlock sh dt pl true)), 1)
    ∧ getItem true (.group (updateChild cs k (.arrayBlock sh dt pl true))) k
      = (.ok (.matValue pl),
          .group (updateChild cs k (.arrayBlock sh dt pl true)), 0)
    ∧ ∀ p, matAt (.group cs) p = some true →
        matAt (.group (updateChild cs k (.arrayBlock sh dt pl true))) p
          = some true := by
  refine ⟨by simp [getItem, getItemC, h], ?_, ?_⟩
  · have h2 := lookup_update_self cs k (.arrayBlock sh dt pl true) _ h
    simp [getItem, getItemC, h2]
  · intro p hp
    match p with
    | [] => simp [matAt, nodeAt] at hp
    | k2 :: rest =>
      by_cases hk : k2 = k
      · subst hk
        rw [matAt] at hp
        rw [show nodeAt (HNode.group cs) (k2 :: rest)
              = nodeAt (.arrayBlock sh dt pl false) rest by
            simp [nodeAt, h]] at hp
        match rest with
        | [] => simp [nodeAt] at hp
        | _ :: _ => simp [nodeAt] at hp
      · rw [matAt] at hp ⊢
        rw [show nodeAt
              (HNode.group (updateChild cs k (.arrayBlock sh dt pl true)))
              (k2 :: rest)
            = nodeAt (HNode.group cs) (k2 :: rest) by
          simp [nodeAt, lookup_update_ne cs k k2 _ hk]]
        exact hp

/-- Witness for C3 on the sample tree's `dq` block. -/
theorem materialize_once_then_cached_witness :
    getItem true sampleTree "dq"
      = (.ok (.matValue [0, 4]),
          .group (updateChild sampleChildren "dq"
            (.arrayBlock [4088, 4088] "int32" [0, 4] true)), 1) :=
  (materialize_once_then_cached sampleChildren "dq"
    [4088, 4088] "int32" [0, 4] rfl).1

/-- Copying commutes with child lookup. -/
theorem lookup_copy : ∀ (cs : HChildren) (k : String),
    lookupChild (copyChildren cs) k = Option.map copyNode (lookupChild cs k)
  | .nil, _ => rfl
  | .cons key n rest, k => by
      by_cases hk : key = k
      · simp [copyChildren, lookupChild, hk]
      · simp only [copyChildren, lookupChild, if_neg hk]
        exact lookup_copy rest k

/-- Copying commutes with path navigation. -/
theorem nodeAt_copy (p : List String) : ∀ n : HNode,
    nodeAt (copyNode n) p = Option.map copyNode (nodeAt n p) := by
  induction p with
  | nil => intro n; simp [nodeAt]
  | cons k rest ih =>
      intro n
      cases n with
      | group cs =>
          rcases hl : lookupChild cs k with _ | c
          · simp [copyNode, nodeAt, lookup_copy, hl]
          · simp [copyNode, nodeAt, lookup_copy, hl, ih c]
      | arrayBlock sh dt pl m => simp [copyNode, nodeAt]
      | scalar v => simp [copyNode, nodeAt]
      | timeValue t => simp [copyNode, nodeAt]
      | quantityValue v u => simp [copyNode, nodeAt]

/-- C6: `copy()` preserves every QuantityValue node exactly: at every
path, the copy holds the same (value, unit) pairing as the original —
the unit tags are equal and the values element-wise equal.  (The
snapshot is an independent value of the functional model, so no
operation on the copy can change the original or vice versa.) -/
theorem copy_preserves_quantity (n : HNode) (p : List String) :
    quantityAt (copyNode n) p = quantityAt n p := by
  rw [quantityAt, quantityAt, nodeAt_copy p n]
  rcases nodeAt n p with _ | c
  · rfl
  · cases c with
    | group cs => rfl
    | arrayBlock sh dt pl m => rfl
    | scalar v => rfl
    | timeValue t => rfl
    | quantityValue v u => rfl

mutual
/-- Every ArrayBlock of a copied tree is materialized. -/
theorem copy_allMat : ∀ n : HNode, allMaterialized (copyNode n) = true
  | .group cs => by
      rw [copyNode, allMaterialized]
      exact copyC_allMat cs
  | .arrayBlock sh dt pl m => by rw [copyNode, allMaterialized]
  | .scalar v => by rw [copyNode]; rfl
  | .timeValue t => by rw [copyNode]; rfl
  | .quantityValue v u => by rw [copyNode]; rfl

/-- Every ArrayBlock of a copied children list is materialized. -/
theorem copyC_allMat : ∀ cs : HChildren,
    allMaterializedC (copyChildren cs) = true
  | .nil => rfl
  | .cons k n rest => by
      rw [copyChildren, allMaterializedC, copy_allMat n, copyC_allMat rest]
      rfl
end

/-- In a fully materialized children list, every looked-up child is fully
materialized. -/
theorem allMatC_lookup : ∀ (cs : HChildren) (k : String) (c : HNode),
    allMaterializedC cs = true → lookupChild cs k = some c →
      allMaterialized c = true
  | .nil, k, c => by intro _ hl; simp [lookupChild] at hl
  | .cons key n rest, k, c => by
      intro hm hl
      rw [allMaterializedC, Bool.and_eq_true] at hm
      by_cases hk : key = k
      · rw [lookupChild, if_pos hk] at hl
        injection hl with hc
        exact hc ▸ hm.1
      · rw [lookupChild, if_neg hk] at hl
        exact allMatC_lookup rest k c hm.2 hl

/-- Indexing a fully materialized Group never fetches, never needs the
stream, returns the children unchanged, and hands out only fully
materialized sub-trees. -/
theorem allMatC_getItemC (st : Bool) (cs : HChildren) (k : String)
    (h : allMaterializedC cs = true) :
    (getItemC st cs k).2.1 = cs ∧ (getItemC st cs k).2.2 = 0 ∧
      (getItemC st cs k).1 ≠ .error .transportError ∧
      ∀ c, (getItemC st cs k).1 = .ok (.node c) →
        allMaterialized c = true := by
  rcases hl : lookupChild cs k with _ | c
  · refine ⟨by simp [getItemC, hl], by simp [getItemC, hl], ?_, ?_⟩
    · simp [getItemC, hl]
    · intro c hc; simp [getItemC, hl] at hc
  · have hc := allMatC_lookup cs k c h hl
    cases c with
    | arrayBlock sh dt pl m =>
        rw [allMaterialized] at hc
        subst hc
        refine ⟨by simp [getItemC, hl], by simp [getItemC, hl], ?_, ?_⟩
        · simp [getItemC, hl]
        · intro c2 hc2; simp [getItemC, hl] at hc2
    | group gcs =>
        refine ⟨by simp [getItemC, hl], by simp [getItemC, hl], ?_, ?_⟩
        · simp [getItemC, hl]
        · intro c2 hc2
          simp [getItemC, hl] at hc2
          exact hc2 ▸ hc
    | scalar v =>
        refine ⟨by simp [getItemC, hl], by simp [getItemC, hl], ?_, ?_⟩
        · simp [getItemC, hl]
        · intro c2 hc2; simp [getItemC, hl] at hc2
    | timeValue t =>
        refine ⟨by simp [getItemC, hl], by simp [getItemC, hl], ?_, ?_⟩
        · simp [getItemC, hl]
        · intro c2 hc2; simp [getItemC, hl] at hc2
    | quantityValue v u =>
        refine ⟨by simp [getItemC, hl], by simp [getItemC, hl], ?_, ?_⟩
        · simp [getItemC, hl]
        · intro c2 hc2; simp [getItemC, hl] at hc2

/-- C8: `copy()` fully detaches the tree from the backing stream: every
ArrayBlock of the copy is already in memory, and any later indexing
access — in particular with the stream closed (`st = false`) — leaves the
tree unchanged, performs no fetch, can never reach the `TransportError`
(closed stream) branch, and yields only sub-trees that are again fully
detached.  `keys()` and `info()` are stream-free by type. -/
theorem copy_detaches_from_stream (n : HNode) (k : String) :
    allMaterialized (copyNode n) = true ∧
    ∀ st : Bool,
      (getItem st (copyNode n) k).2.1 = copyNode n ∧
      (getItem st (copyNode n) k).2.2 = 0 ∧
      (getItem st (copyNode n) k).1 ≠ .error .transportError ∧
      ∀ c, (getItem st (copyNode n) k).1 = .ok (.node c) →
        allMaterialized c = true := by
  refine ⟨copy_allMat n, fun st => ?_⟩
  cases hcn : copyNode n with
  | group cs =>
      have hm : allMaterializedC cs = true := by
        have := copy_allMat n
        rw [hcn, allMaterialized] at this
        exact this
      obtain ⟨h1, h2, h3, h4⟩ := allMatC_getItemC st cs k hm
      refine ⟨?_, ?_, ?_, ?_⟩
      · simp [getItem, h1]
      · simp [getItem, h2]
      · simp only [getItem]
        exact h3
      · intro c hc
        exact h4 c hc
  | arrayBlock sh dt pl m =>
      refine ⟨rfl, rfl, by simp [getItem], ?_⟩
      intro c hc; simp [getItem] at hc
  | scalar v =>
      refine ⟨rfl, rfl, by simp [getItem], ?_⟩
      intro c hc; simp [getItem] at hc
  | timeValue t =>
      refine ⟨rfl, rfl, by simp [getItem], ?_⟩
      intro c hc; simp [getItem] at hc
  | quantityValue v u =>
      refine ⟨rfl, rfl, by simp [getItem], ?_⟩
      intro c hc; simp [getItem] at hc

/-- Witness for C8: the copied sample tree is fully materialized, and
accessing `data` with the stream closed succeeds with no fetch. -/
theorem copy_detaches_from_stream_witness :
    allMaterialized (copyNode sampleTree) = true ∧
    (getItem false (copyNode sampleTree) "data").2.1 = copyNode sampleTree ∧
    (getItem false (copyNode sampleTree) "data").2.2 = 0 ∧
    (getItem false (copyNode sampleTree) "data").1
      = .ok (.matValue [1, 2, 3]) := by
  obtain ⟨h1, h2⟩ := copy_detaches_from_stream sampleTree "data"
  exact ⟨h1, (h2 false).1, (h2 false).2.1, rfl⟩

/-- Parsing commutes with child lookup. -/
theorem lookup_parse (lz : Bool) (k : String) : ∀ scs : SrcChildren,
    lookupChild (parseChildren lz scs) k
      = Option.map (parseNode lz) (srcLookup scs k)
  | .nil => rfl
  | .cons key n rest => by
      by_cases hk : key = k
      · simp [parseChildren, lookupChild, srcLookup, hk]
      · simp only [parseChildren, lookupChild, srcLookup, if_neg hk]
        exact lookup_parse lz k rest

/-- Parsing commutes with path navigation. -/
theorem nodeAt_parse (lz : Bool) (p : List String) : ∀ s : SrcNode,
    nodeAt (parseNode lz s) p = Option.map (parseNode lz) (srcNodeAt s p) := by
  induction p with
  | nil => intro s; simp [nodeAt, srcNodeAt]
  | cons k rest ih =>
      intro s
      cases s with
      | group scs =>
          rcases hl : srcLookup scs k with _ | c
          · simp [parseNode, nodeAt, srcNodeAt, lookup_parse, hl]
          · simp [parseNode, nodeAt, srcNodeAt, lookup_parse, hl, ih c]
      | arrayBlock sh dt pl => simp [parseNode, nodeAt, srcNodeAt]
      | scalar v => simp [parseNode, nodeAt, srcNodeAt]
      | timeValue t => simp [parseNode, nodeAt, srcNodeAt]
      | quantityValue v u => simp [parseNode, nodeAt, srcNodeAt]

/-- Parsing preserves the child keys of every Group. -/
theorem keys_parse (lz : Bool) : ∀ scs : SrcChildren,
    keysOfChildren (parseChildren lz scs) = srcKeys scs
  | .nil => rfl
  | .cons key n rest => by
      rw [parseChildren, keysOfChildren, srcKeys, keys_parse lz rest]

/-- A successful `openTree` happened on a well-formed source and returned
its parse. -/
theorem openTree_ok (s : SrcNode) (lz : Bool) (root : HNode)
    (h : openTree (some s) lz = .ok root) :
    srcWellFormed s = true ∧ root = parseNode lz s := by
  rw [openTree] at h
  by_cases hw : srcWellFormed s = true
  · rw [if_pos hw] at h
    injection h with h2
    exact ⟨hw, h2.symm⟩
  · rw [if_neg hw] at h
    exact absurd h (by simp)

/-- Erasing payloads keeps every child key. -/
theorem keysC_erase : ∀ cs : HChildren,
    keysOfChildren (erasePayloadC cs) = keysOfChildren cs
  | .nil => rfl
  | .cons k n rest => by
      rw [erasePayloadC, keysOfChildren, keysOfChildren, keysC_erase rest]

/-- `keys()` does not depend on payload bytes. -/
theorem keysE_erase (n : HNode) : keysE (erasePayload n) = keysE n := by
  cases n with
  | group cs => rw [erasePayload, keysE, keysE, keysC_erase]
  | arrayBlock sh dt pl m => rfl
  | scalar v => rfl
  | timeValue t => rfl
  | quantityValue v u => rfl

mutual
/-- `info()` does not depend on payload bytes. -/
theorem info_erase : ∀ n : HNode, infoNode (erasePayload n) = infoNode n
  | .group cs => by rw [erasePayload, infoNode, infoNode, infoC_erase cs]
  | .arrayBlock sh dt pl m => by rw [erasePayload, infoNode, infoNode]
  | .scalar v => by rw [erasePayload]
  | .timeValue t => by rw [erasePayload]
  | .quantityValue v u => by rw [erasePayload]

/-- `info()` over children does not depend on payload bytes. -/
theorem infoC_erase : ∀ cs : HChildren,
    infoChildren (erasePayloadC cs) = infoChildren cs
  | .nil => rfl
  | .cons k n rest => by
      rw [erasePayloadC, infoChildren, infoChildren, info_erase n,
        infoC_erase rest]
end

/-- An indexing access that returns a Group sub-tree fetches nothing. -/
theorem getItemC_node_no_fetch (st : Bool) (cs : HChildren) (k : String)
    (c : HNode) (h : (getItemC st cs k).1 = .ok (.node c)) :
    (getItemC st cs k).2.2 = 0 := by
  rcases hl : lookupChild cs k with _ | c2
  · simp [getItemC, hl]
  · cases c2 with
    | group gcs => simp [getItemC, hl]
    | arrayBlock sh dt pl m =>
        cases m with
        | true => simp [getItemC, hl]
        | false =>
            cases st with
            | true => rw [getItemC, hl] at h ⊢; simp at h
            | false => simp [getItemC, hl]
    | scalar v => simp [getItemC, hl]
    | timeValue t => simp [getItemC, hl]
    | quantityValue v u => simp [getItemC, hl]

/-- An indexing access on any node that returns a Group sub-tree fetches
nothing. -/
theorem getItem_node_no_fetch (st : Bool) (n : HNode) (k : String)
    (c : HNode) (h : (getItem st n k).1 = .ok (.node c)) :
    (getItem st n k).2.2 = 0 := by
  cases n with
  | group cs =>
      rw [getItem] at h ⊢
      exact getItemC_node_no_fetch st cs k c h
  | arrayBlock sh dt pl m => rfl
  | scalar v => rfl
  | timeValue t => rfl
  | quantityValue v u => rfl

/-- C2: after `open(source, lazy=true)` succeeds, every ArrayBlock node
of the returned tree already carries the shape, dtype and payload listed
in the source and is unmaterialized; `info()` and `keys()` depend only on
the payload-erased structure; and any indexing access that returns a
Group sub-tree performs zero payload fetches. -/
theorem lazy_open_structure_no_fetch (s : SrcNode) (root : HNode)
    (hopen : openTree (some s) true = .ok root) :
    (∀ p sh dt pl m, nodeAt root p = some (.arrayBlock sh dt pl m) →
        m = false ∧ srcNodeAt s p = some (.arrayBlock sh dt pl)) ∧
    infoNode (erasePayload root) = infoNode root ∧
    keysE (erasePayload root) = keysE root ∧
    ∀ (st : Bool) (k : String) (c : HNode),
      (getItem st root k).1 = .ok (.node c) → (getItem st root k).2.2 = 0 := by
  obtain ⟨hw, hroot⟩ := openTree_ok s true root hopen
  subst hroot
  refine ⟨?_, info_erase _, keysE_erase _, ?_⟩
  · intro p sh dt pl m hp
    rw [nodeAt_parse true p s] at hp
    rcases hs : srcNodeAt s p with _ | c
    · rw [hs] at hp; exact absurd hp (by simp)
    · rw [hs] at hp
      cases c with
      | group scs => exact absurd hp (by simp [parseNode])
      | arrayBlock sh2 dt2 pl2 =>
          rw [Option.map_some'] at hp
          injection hp with hp2
          rw [parseNode] at hp2
          injection hp2 with e1 e2 e3 e4
          subst e1; subst e2; subst e3
          exact ⟨e4.symm, rfl⟩
      | scalar v => exact absurd hp (by simp [parseNode])
      | timeValue t => exact absurd hp (by simp [parseNode])
      | quantityValue v u => exact absurd hp (by simp [parseNode])
  · intro st k c hc
    exact getItem_node_no_fetch st _ k c hc

/-- Witness for C2: opening the sample source lazily leaves the `data`
block with its source shape and dtype and unmaterialized. -/
theorem lazy_open_structure_no_fetch_witness :
    srcNodeAt srcSample ["data"]
      = some (SrcNode.arrayBlock [2, 2] "float32" [1, 2]) :=
  ((lazy_open_structure_no_fetch srcSample (parseNode true srcSample) rfl).1
    ["data"] [2, 2] "float32" [1, 2] false rfl).2

/-- `distinct` decides `List.Nodup`. -/
theorem distinct_iff_nodup : ∀ l : List String,
    distinct l = true ↔ l.Nodup
  | [] => by simp [distinct]
  | k :: rest => by
      rw [distinct, List.nodup_cons, Bool.and_eq_true,
        ← distinct_iff_nodup rest]
      constructor
      · rintro ⟨h1, h2⟩
        refine ⟨fun hm => ?_, h2⟩
        rw [Bool.not_eq_true'] at h1
        have h3 : rest.contains k = true := List.elem_iff.mpr hm
        rw [h3] at h1
        cases h1
      · rintro ⟨h1, h2⟩
        refine ⟨?_, h2⟩
        rw [Bool.not_eq_true']
        cases he : rest.contains k
        · rfl
        · exact absurd (List.elem_iff.mp he) h1

/-- In a well-formed children list, every looked-up child is
well-formed. -/
theorem srcWF_lookup : ∀ (scs : SrcChildren) (k : String) (c : SrcNode),
    srcWellFormedC scs = true → srcLookup scs k = some c →
      srcWellFormed c = true
  | .nil, k, c => by intro _ hl; simp [srcLookup] at hl
  | .cons key n rest, k, c => by
      intro hw hl
      rw [srcWellFormedC, Bool.and_eq_true] at hw
      by_cases hk : key = k
      · rw [srcLookup, if_pos hk] at hl
        injection hl with hc
        exact hc ▸ hw.1
      · rw [srcLookup, if_neg hk] at hl
        exact srcWF_lookup rest k c hw.2 hl

/-- In a well-formed source tree, every node reached by a path is
well-formed. -/
theorem srcWF_nodeAt (p : List String) : ∀ (s c : SrcNode),
    srcWellFormed s = true → srcNodeAt s p = some c →
      srcWellFormed c = true := by
  induction p with
  | nil =>
      intro s c hw hp
      rw [srcNodeAt] at hp
      injection hp with h
      exact h ▸ hw
  | cons k rest ih =>
      intro s c hw hp
      cases s with
      | group scs =>
          rw [srcNodeAt] at hp
          rcases hl : srcLookup scs k with _ | c2
          · rw [hl] at hp; exact absurd hp (by simp)
          · rw [hl] at hp
            rw [srcWellFormed, Bool.and_eq_true] at hw
            exact ih c2 c (srcWF_lookup scs k c2 hw.2 hl) hp
      | arrayBlock sh dt pl => simp [srcNodeAt] at hp
      | scalar v => simp [srcNodeAt] at hp
      | timeValue t => simp [srcNodeAt] at hp
      | quantityValue v u => simp [srcNodeAt] at hp

/-- C4: after a successful `open`, every Group node of the returned tree
answers `keys()` with exactly the child keys present at that spot in the
parsed source, and those keys are duplicate-free. -/
theorem group_keys_exactly_parsed (s : SrcNode) (lz : Bool) (root : HNode)
    (hopen : openTree (some s) lz = .ok root) :
    ∀ p cs2, nodeAt root p = some (.group cs2) →
      ∃ scs2, srcNodeAt s p = some (.group scs2) ∧
        keysE (.group cs2) = .ok (srcKeys scs2) ∧
        distinct (keysOfChildren cs2) = true ∧
        (keysOfChildren cs2).Nodup := by
  obtain ⟨hw, hroot⟩ := openTree_ok s lz root hopen
  subst hroot
  intro p cs2 hp
  rw [nodeAt_parse lz p s] at hp
  rcases hs : srcNodeAt s p with _ | c
  · rw [hs] at hp; exact absurd hp (by simp)
  · rw [hs] at hp
    cases c with
    | group scs2 =>
        rw [Option.map_some'] at hp
        injection hp with hp2
        rw [parseNode] at hp2
        injection hp2 with e
        subst e
        have hwf : srcWellFormed (SrcNode.group scs2) = true :=
          srcWF_nodeAt p s _ hw hs
        rw [srcWellFormed, Bool.and_eq_true] at hwf
        refine ⟨scs2, rfl, ?_, ?_, ?_⟩
        · rw [keysE, keys_parse]
        · rw [keys_parse]; exact hwf.1
        · rw [keys_parse]; exact (distinct_iff_nodup _).mp hwf.1
    | arrayBlock sh2 dt2 pl2 => exact absurd hp (by simp [parseNode])
    | scalar v => exact absurd hp (by simp [parseNode])
    | timeValue t => exact absurd hp (by simp [parseNode])
    | quantityValue v u => exact absurd hp (by simp [parseNode])

/-- Witness for C4 on the sample source's `meta` group. -/
theorem group_keys_exactly_parsed_witness :
    ∃ scs2, srcNodeAt srcSample ["meta"] = some (.group scs2) ∧
      keysE (.group .nil) = .ok (srcKeys scs2) ∧
      distinct (keysOfChildren .nil) = true ∧
      (keysOfChildren (.nil : HChildren)).Nodup :=
  group_keys_exactly_parsed srcSample true (parseNode true srcSample) rfl
    ["meta"] .nil rfl

/-- C9: feeding a generic tree with top-level keys `asdf_library`,
`history`, `roman` to the data-model `open` returns exactly the `roman`
subtree as the model; the model's `keys()` are precisely the `roman`
group's child keys, and any key absent there — in particular the
top-level `asdf_library` and `history` — is not a key of the model. -/
theorem rdm_open_returns_roman_subtree (a h : HNode) (rs : HChildren) :
    rdmOpen (.group (.cons "asdf_library" a (.cons "history" h
        (.cons "roman" (.group rs) .nil)))) = .ok (.group rs) ∧
    keysE (.group (.cons "asdf_library" a (.cons "history" h
        (.cons "roman" (.group rs) .nil))))
      = .ok ["asdf_library", "history", "roman"] ∧
    keysE (.group rs) = .ok (keysOfChildren rs) ∧
    ∀ k, (keysOfChildren rs).contains k = false →
      ∃ ks, keysE (.group rs) = .ok ks ∧ ks.contains k = false := by
  refine ⟨rfl, rfl, rfl, ?_⟩
  intro k hk
  exact ⟨keysOfChildren rs, rfl, hk⟩

/-- Witness for C9: on a sample `roman` group with only a `data` child,
the model keeps `data` and has neither `asdf_library` nor `history`. -/
theorem rdm_open_returns_roman_subtree_witness :
    rdmOpen (.group (.cons "asdf_library" (.scalar 1) (.cons "history"
        (.scalar 2) (.cons "roman" (.group romanSample) .nil))))
      = .ok (.group romanSample) ∧
    ∃ ks, keysE (.group romanSample) = .ok ks ∧
      ks.contains "asdf_library" = false := by
  obtain ⟨h1, _, _, h4⟩ :=
    rdm_open_returns_roman_subtree (.scalar 1) (.scalar 2) romanSample
  exact ⟨h1, h4 "asdf_library" (by decide)⟩
